import Mathlib

set_option maxRecDepth 4000

/-!
A shallow embedding of the ZapAlloc region-style bump allocator.

Addresses and sizes are modelled as `Nat`.  The OS gives out naturally
aligned `BLOCK_SIZE` regions; the model hands the k-th fresh block the base
address `k * BLOCK_SIZE` (the real `Block::new` allocates with alignment
equal to its size, so every real base is a multiple of `BLOCK_SIZE`).
Machine-word masking `x & !(ALIGN - 1)` becomes `x / ALIGN * ALIGN`;
`checked_sub` becomes an `Option`-valued subtraction.  Rust `Vec`s used as
stacks (push/pop at the back) are modelled as Lean lists with the top of the
stack at the head.  Line-mark bytes, which the source stores in the block's
metadata page at `META_OFFSET + i`, are modelled as a function field
`lineMark : Nat → Nat`.
-/

/-! Constants from src/constants.rs (64-bit target, so the word size is 8). -/

def BLOCK_SIZE : Nat := 1024 * 16

def LINE_SIZE : Nat := 128

def META_SIZE : Nat := BLOCK_SIZE / LINE_SIZE

def LINE_COUNT : Nat := META_SIZE - 1

def BLOCK_CAPACITY : Nat := BLOCK_SIZE - META_SIZE

def META_OFFSET : Nat := BLOCK_CAPACITY

def ALIGN : Nat := 8

def FREE : Nat := 0

def MARKED : Nat := 1

def MAX_ALLOC_SIZE : Nat := 2 ^ 32 - 1

def SMALL_OBJECT_MIN : Nat := 1

def SMALL_OBJECT_MAX : Nat := LINE_SIZE

def MEDIUM_OBJECT_MIN : Nat := SMALL_OBJECT_MAX + 1

def MEDIUM_OBJECT_MAX : Nat := 1024 * 8

def LARGE_OBJECT_MIN : Nat := MEDIUM_OBJECT_MAX + 1

def LARGE_OBJECT_MAX : Nat := MAX_ALLOC_SIZE

/-- `x & ALLOC_ALIGN_MASK` with `ALLOC_ALIGN_MASK = !(ALIGN - 1)`:
clears the low three bits, i.e. rounds down to a multiple of `ALIGN`. -/
def alignDown (x : Nat) : Nat := x / ALIGN * ALIGN

/-- `usize::checked_sub`. -/
def checkedSub (a b : Nat) : Option Nat := if b ≤ a then some (a - b) else none

/-- src/allocator.rs `add_alignment_padding`. -/
def add_alignment_padding (objectSize : Nat) : Nat :=
  if objectSize % ALIGN = 0 then objectSize
  else objectSize + (ALIGN - objectSize % ALIGN)

inductive SizeClass where
  | Small
  | Medium
  | Large
deriving DecidableEq

inductive AllocError where
  | BadRequest
  | OOM
deriving DecidableEq

/-- src/allocator.rs `SizeClass::get_for_size`: match on the three
constant ranges, anything else is a bad request. -/
def SizeClass.get_for_size (objectSize : Nat) : Except AllocError SizeClass :=
  if SMALL_OBJECT_MIN ≤ objectSize ∧ objectSize ≤ SMALL_OBJECT_MAX then .ok .Small
  else if MEDIUM_OBJECT_MIN ≤ objectSize ∧ objectSize ≤ MEDIUM_OBJECT_MAX then .ok .Medium
  else if LARGE_OBJECT_MIN ≤ objectSize ∧ objectSize ≤ LARGE_OBJECT_MAX then .ok .Large
  else .error .BadRequest

/-! The bump block (src/bump_block.rs). -/

structure BumpBlock where
  base : Nat
  cursor : Nat
  limit : Nat
  lineMark : Nat → Nat

def BumpBlock.current_hole_size (b : BumpBlock) : Nat := b.cursor - b.limit

/-- The body of the `for index in (0..starting_line).rev()` loop of
`find_next_available_hole`, as structural recursion on the next index to
visit.  `cnt` is the running count of consecutive free lines, `e` the upper
line of the candidate hole. -/
def findHoleAux (mark : Nat → Nat) (lr : Nat) : Nat → Nat → Nat → Option (Nat × Nat)
  | 0, cnt, e =>
    if mark 0 = 0 then
      if lr ≤ cnt + 1 then some (e * LINE_SIZE, 0) else none
    else
      if lr < cnt then some (e * LINE_SIZE, 2 * LINE_SIZE) else none
  | i + 1, cnt, e =>
    if mark (i + 1) = 0 then
      findHoleAux mark lr i (cnt + 1) e
    else if lr < cnt then some (e * LINE_SIZE, (i + 3) * LINE_SIZE)
    else findHoleAux mark lr i 0 (i + 1)

/-- src/bump_block.rs `find_next_available_hole`, reading line marks through
`mark`.  Returns block-relative `(cursor, limit)` bounds of the found hole. -/
def find_next_available_hole (mark : Nat → Nat) (startingAt allocSize : Nat) :
    Option (Nat × Nat) :=
  let startingLine := startingAt / LINE_SIZE
  let linesRequired := (allocSize + LINE_SIZE - 1) / LINE_SIZE
  match startingLine with
  | 0 => none
  | n + 1 => findHoleAux mark linesRequired n 0 (n + 1)

/-- src/bump_block.rs `inner_alloc`, with explicit fuel for the
self-recursion after a hole skip.  The result `none` means the fuel ran
out; `some (r, b)` gives the returned pointer (if any) together with the
final block state (the source mutates `cursor`/`limit` in place, also on
paths that end up returning `None`). -/
def innerAllocF : Nat → BumpBlock → Nat → Option (Option Nat × BumpBlock)
  | 0, _, _ => none
  | fuel + 1, b, allocSize =>
    match checkedSub b.cursor allocSize with
    | none => some (none, b)
    | some diff =>
      let next := alignDown diff
      if next < b.limit then
        if 0 < b.limit - b.base then
          match find_next_available_hole b.lineMark (b.limit - b.base) allocSize with
          | some (c, l) =>
              innerAllocF fuel
                { b with cursor := b.base + c, limit := b.base + l } allocSize
          | none => some (none, b)
        else some (none, b)
      else some (some next, { b with cursor := next })

/-- Fuel that always suffices on well-formed blocks (proved below). -/
def BumpBlock.innerAllocFuel (b : BumpBlock) : Nat := (b.limit - b.base) / LINE_SIZE + 3

def BumpBlock.inner_alloc (b : BumpBlock) (allocSize : Nat) : Option Nat × BumpBlock :=
  (innerAllocF b.innerAllocFuel b allocSize).getD (none, b)

/-- `BumpBlock::new`: the k-th block the OS hands out, at base
`k * BLOCK_SIZE`, freshly reset. -/
def freshBlock (k : Nat) : BumpBlock :=
  { base := k * BLOCK_SIZE
    cursor := k * BLOCK_SIZE + BLOCK_CAPACITY
    limit := k * BLOCK_SIZE
    lineMark := fun _ => FREE }

/-- src/bump_block.rs `reset`: restore the full hole and clear all 128
metadata bytes. -/
def BumpBlock.reset (b : BumpBlock) : BumpBlock :=
  { b with
    limit := b.base
    cursor := b.base + BLOCK_CAPACITY
    lineMark := fun i => if i < 128 then FREE else b.lineMark i }

/-- src/bump_block.rs `mark_line`; `none` models the panic on an
out-of-range line number. -/
def BumpBlock.mark_line (b : BumpBlock) (lineNum : Nat) : Option BumpBlock :=
  if LINE_COUNT ≤ lineNum then none
  else some { b with lineMark := fun i => if i = lineNum then MARKED else b.lineMark i }

/-- src/bump_block.rs `mark_block`: the block mark byte sits at
`BLOCK_SIZE - 1 = META_OFFSET + 127`, i.e. mark index 127. -/
def BumpBlock.mark_block (b : BumpBlock) : BumpBlock :=
  { b with lineMark := fun i => if i = 127 then MARKED else b.lineMark i }

/-- The bump-block state invariant of the spec:
`block_base ≤ limit ≤ cursor ≤ block_base + BLOCK_CAPACITY`. -/
def wfInv (b : BumpBlock) : Prop :=
  b.base ≤ b.limit ∧ b.limit ≤ b.cursor ∧ b.cursor ≤ b.base + BLOCK_CAPACITY

/-- Well-formedness of any block produced by `Block::new`: the base is
word-aligned (it is in fact `BLOCK_SIZE`-aligned) and the state invariant
holds. -/
def BlockWF (b : BumpBlock) : Prop := ALIGN ∣ b.base ∧ wfInv b

/-! The block list and heap facade (src/heap.rs).  The header type is a
type parameter of `ZapHeap`; only its byte size matters to the allocator,
so the model takes `headerSize` as an argument.  The OS allocator is
modelled as never failing (`OOM` is unreachable in the model); an outer
`none` models a panic (a failed `unwrap`/`assert!`) or divergence. -/

structure BlockList where
  head : Option BumpBlock
  overflow : Option BumpBlock
  free : List BumpBlock
  recycle : List BumpBlock
  used : List BumpBlock
  nextBase : Nat

def emptyBlockList : BlockList :=
  { head := none, overflow := none, free := [], recycle := [], used := [], nextBase := 1 }

def BlockList.block_count (bl : BlockList) : Nat :=
  (if bl.head.isSome then 1 else 0) + (if bl.overflow.isSome then 1 else 0) +
    (bl.free.length + bl.recycle.length + bl.used.length)

/-- src/heap.rs `get_free_block`: pop a free block, else take a fresh one
from the OS. -/
def BlockList.get_free_block (bl : BlockList) : BumpBlock × BlockList :=
  match bl.free with
  | b :: rest => (b, { bl with free := rest })
  | [] => (freshBlock bl.nextBase, { bl with nextBase := bl.nextBase + 1 })

/-- src/heap.rs `overflow_alloc`.  The leading `assert!` and the final
`unwrap` are modelled as the outer `none`. -/
def BlockList.overflow_alloc (bl : BlockList) (allocSize : Nat) :
    Option (Except AllocError (Nat × BlockList)) :=
  if BLOCK_CAPACITY < allocSize then none
  else
    match bl.overflow with
    | some ov =>
      match ov.inner_alloc allocSize with
      | (some space, ov') => some (.ok (space, { bl with overflow := some ov' }))
      | (none, ov') =>
        match bl.free with
        | fb :: rest =>
          match fb.inner_alloc allocSize with
          | (some space, fb') =>
              some (.ok (space,
                { bl with overflow := some fb', free := rest, recycle := ov' :: bl.recycle }))
          | (none, _) => none
        | [] =>
          match (freshBlock bl.nextBase).inner_alloc allocSize with
          | (some space, fb') =>
              some (.ok (space,
                { bl with
                  overflow := some fb'
                  nextBase := bl.nextBase + 1
                  recycle := ov' :: bl.recycle }))
          | (none, _) => none
    | none =>
      let p := bl.get_free_block
      match p.1.inner_alloc allocSize with
      | (some space, fb') => some (.ok (space, { p.2 with overflow := some fb' }))
      | (none, _) => none

/-- src/heap.rs `find_space`, with fuel for its self-recursion after a
head rotation.  The rotation pops `recycle`, then `free`, else takes a
fresh block; the displaced head (as mutated by its failed `inner_alloc`)
goes onto `used`. -/
def findSpaceF : Nat → BlockList → Nat → SizeClass → Option (Except AllocError (Nat × BlockList))
  | 0, _, _, _ => none
  | fuel + 1, bl, allocSize, sizeClass =>
    if sizeClass = SizeClass.Large then some (.error .BadRequest)
    else
      match bl.head with
      | some head =>
        if sizeClass = SizeClass.Medium ∧ head.current_hole_size < allocSize then
          bl.overflow_alloc allocSize
        else
          match head.inner_alloc allocSize with
          | (some space, head') => some (.ok (space, { bl with head := some head' }))
          | (none, head') =>
            match bl.recycle with
            | fb :: rest =>
                findSpaceF fuel
                  { bl with head := some fb, recycle := rest, used := head' :: bl.used }
                  allocSize sizeClass
            | [] =>
              match bl.free with
              | fb :: rest =>
                  findSpaceF fuel
                    { bl with head := some fb, free := rest, used := head' :: bl.used }
                    allocSize sizeClass
              | [] =>
                  findSpaceF fuel
                    { bl with
                      head := some (freshBlock bl.nextBase)
                      nextBase := bl.nextBase + 1
                      used := head' :: bl.used }
                    allocSize sizeClass
      | none =>
        let p := bl.get_free_block
        match p.1.inner_alloc allocSize with
        | (some space, nb') => some (.ok (space, { p.2 with head := some nb' }))
        | (none, _) => none

/-- Each rotation consumes one block from `recycle` or `free` or reaches a
fresh block, so this fuel is always enough (a fresh head either serves the
request or the function diverges in the source as well). -/
def BlockList.find_space (bl : BlockList) (allocSize : Nat) (sizeClass : SizeClass) :
    Option (Except AllocError (Nat × BlockList)) :=
  findSpaceF (bl.recycle.length + bl.free.length + 2) bl allocSize sizeClass

/-- src/heap.rs `alloc` for a header of `headerSize` bytes and a payload of
`objectSize` bytes; returns the payload address. -/
def heapAlloc (bl : BlockList) (headerSize objectSize : Nat) :
    Option (Except AllocError (Nat × BlockList)) :=
  let headerAllocSize := add_alignment_padding headerSize
  let totalSize := headerAllocSize + objectSize
  let allocSize := add_alignment_padding totalSize
  match SizeClass.get_for_size allocSize with
  | .error e => some (.error e)
  | .ok sizeClass =>
    match bl.find_space allocSize sizeClass with
    | none => none
    | some (.error e) => some (.error e)
    | some (.ok (space, bl')) => some (.ok (space + headerAllocSize, bl'))

/-- src/heap.rs `alloc_array`: same layout computation, but the array
payload is placed at `space + headerSize` (the unpadded header size). -/
def heapAllocArray (bl : BlockList) (headerSize sizeBytes : Nat) :
    Option (Except AllocError (Nat × BlockList)) :=
  let headerAllocSize := add_alignment_padding headerSize
  let totalSize := headerAllocSize + sizeBytes
  let allocSize := add_alignment_padding totalSize
  match SizeClass.get_for_size allocSize with
  | .error e => some (.error e)
  | .ok sizeClass =>
    match bl.find_space allocSize sizeClass with
    | none => none
    | some (.error e) => some (.error e)
    | some (.ok (space, bl')) => some (.ok (space + headerSize, bl'))

/-! Byte-level memory effects of `alloc_array` (for the zero-initialization
property).  Memory is a function from addresses to byte values. -/

def writeByte (mem : Nat → Nat) (a v : Nat) : Nat → Nat :=
  fun x => if x = a then v else mem x

/-- `write(space as *mut Header, header)`: the header's `headerSize` bytes
land at `space`; their values are opaque (`hdr`). -/
def hdrWrite (mem : Nat → Nat) (space headerSize : Nat) (hdr : Nat → Nat) : Nat → Nat :=
  fun a => if space ≤ a ∧ a < space + headerSize then hdr (a - space) else mem a

/-- The `for byte in array { *byte = 0 }` loop over
`[start, start + n)`, in increasing address order. -/
def zeroRange (mem : Nat → Nat) (start : Nat) : Nat → Nat → Nat
  | 0 => mem
  | n + 1 => writeByte (zeroRange mem start n) (start + n) 0

/-- `alloc_array` together with its writes to memory: header first, then
the zeroing loop over the payload. -/
def heapAllocArrayMem (bl : BlockList) (headerSize sizeBytes : Nat) (mem hdr : Nat → Nat) :
    Option (Except AllocError (Nat × (BlockList × (Nat → Nat)))) :=
  let headerAllocSize := add_alignment_padding headerSize
  let totalSize := headerAllocSize + sizeBytes
  let allocSize := add_alignment_padding totalSize
  match SizeClass.get_for_size allocSize with
  | .error e => some (.error e)
  | .ok sizeClass =>
    match bl.find_space allocSize sizeClass with
    | none => none
    | some (.error e) => some (.error e)
    | some (.ok (space, bl')) =>
        some (.ok (space + headerSize,
          (bl', zeroRange (hdrWrite mem space headerSize hdr) (space + headerSize) sizeBytes)))

/-- src/heap.rs `get_header`: payload pointer cast to a header pointer,
moved back one header element, i.e. `p - headerSize`. -/
def get_header (headerSize p : Nat) : Nat := p - headerSize

/-- src/heap.rs `get_object`: header pointer moved forward one header
element, i.e. `h + headerSize`. -/
def get_object (headerSize h : Nat) : Nat := h + headerSize

/-- Membership of a bump block in the block list. -/
def MemBlock (bl : BlockList) (b : BumpBlock) : Prop :=
  bl.head = some b ∨ bl.overflow = some b ∨ b ∈ bl.free ∨ b ∈ bl.recycle ∨ b ∈ bl.used

/-- Every block owned by the list is well-formed. -/
def BlockList.wfState (bl : BlockList) : Prop := ∀ b, MemBlock bl b → BlockWF b

/-- The mark table of scenario S1: lines 0, 1, 2, 4 and 10 marked. -/
def markS1 : Nat → Nat :=
  fun i => if i = 0 ∨ i = 1 ∨ i = 2 ∨ i = 4 ∨ i = 10 then MARKED else FREE

/-- A bump block whose current hole is `[1280, 1536)` with every line
free below it (its state satisfies the bump-block invariant). -/
def c4Block : BumpBlock :=
  { base := 0, cursor := 1536, limit := 1280, lineMark := fun _ => FREE }

def isOkResult (r : Option (Except AllocError (Nat × BlockList))) : Bool :=
  match r with
  | some (.ok _) => true
  | _ => false

def allocResultPtr (r : Option (Except AllocError (Nat × BlockList))) : Option Nat :=
  match r with
  | some (.ok (p, _)) => some p
  | _ => none

def allocResultState (r : Option (Except AllocError (Nat × BlockList))) : BlockList :=
  match r with
  | some (.ok (_, bl)) => bl
  | _ => emptyBlockList

def arrayMemState (r : Option (Except AllocError (Nat × (BlockList × (Nat → Nat))))) :
    BlockList :=
  match r with
  | some (.ok (_, (bl, _))) => bl
  | _ => emptyBlockList

def arrayMemBytes (r : Option (Except AllocError (Nat × (BlockList × (Nat → Nat))))) :
    Nat → Nat :=
  match r with
  | some (.ok (_, (_, m))) => m
  | _ => fun _ => 0

/-- A head block whose current hole is 128 bytes. -/
def c2HeadBlock : BumpBlock := { base := 0, cursor := 128, limit := 0, lineMark := fun _ => FREE }

/-- A heap state with that head installed. -/
def c2List : BlockList := { emptyBlockList with head := some c2HeadBlock }

/-! Arithmetic facts about the alignment helpers. -/

lemma alignDown_le (x : Nat) : alignDown x ≤ x := by
  simp only [alignDown, ALIGN]; omega

lemma dvd_alignDown (x : Nat) : ALIGN ∣ alignDown x := by
  simp only [alignDown, ALIGN]; omega

lemma le_alignDown {y x : Nat} (hy : ALIGN ∣ y) (hle : y ≤ x) : y ≤ alignDown x := by
  simp only [ALIGN] at hy
  simp only [alignDown, ALIGN]
  omega

lemma le_add_alignment_padding (n : Nat) : n ≤ add_alignment_padding n := by
  simp only [add_alignment_padding, ALIGN]; split <;> omega

lemma dvd_add_alignment_padding (n : Nat) : ALIGN ∣ add_alignment_padding n := by
  simp only [add_alignment_padding, ALIGN]; split <;> omega

lemma add_alignment_padding_eq_self {n : Nat} (h : ALIGN ∣ n) : add_alignment_padding n = n := by
  simp only [ALIGN] at h
  simp only [add_alignment_padding, ALIGN]
  split <;> omega

lemma alignDown_sub_eq {c s : Nat} (hc : ALIGN ∣ c) (hs : s ≤ c) :
    alignDown (c - s) = c - add_alignment_padding s := by
  simp only [ALIGN] at hc
  simp only [alignDown, add_alignment_padding, ALIGN]
  split <;> omega

/-! Characterization of the hole-finding scan.  Along the loop the running
count always equals the number of lines strictly between the next index to
visit and the candidate hole's upper line `e`, and those lines are all
free.  Any returned hole with a non-zero limit was closed against a marked
line `ii` with strictly more than `lr` consecutive free lines above it. -/

lemma findHoleAux_spec (mark : Nat → Nat) (lr : Nat) :
    ∀ i cnt e c l, cnt + i + 1 = e →
      (∀ j, i < j → j < e → mark j = 0) →
      findHoleAux mark lr i cnt e = some (c, l) →
      ∃ ee, c = ee * LINE_SIZE ∧ ee ≤ e ∧
        (l = 0 ∨ ∃ ii cc, l = (ii + 2) * LINE_SIZE ∧ mark ii ≠ 0 ∧
          cc + ii + 1 = ee ∧ lr < cc ∧ ∀ j, ii < j → j < ee → mark j = 0) := by
  intro i
  induction i with
  | zero =>
    intro cnt e c l he hfree h
    by_cases hm : mark 0 = 0
    · simp only [findHoleAux, hm, if_true] at h
      split at h
      · simp only [Option.some.injEq, Prod.mk.injEq] at h
        exact ⟨e, h.1.symm, Nat.le_refl e, Or.inl h.2.symm⟩
      · simp at h
    · simp only [findHoleAux, hm, if_false] at h
      split at h
      · simp only [Option.some.injEq, Prod.mk.injEq] at h
        refine ⟨e, h.1.symm, Nat.le_refl e,
          Or.inr ⟨0, cnt, h.2.symm, hm, he, by assumption, ?_⟩⟩
        intro j hj1 hj2; exact hfree j hj1 hj2
      · simp at h
  | succ i ih =>
    intro cnt e c l he hfree h
    by_cases hm : mark (i + 1) = 0
    · simp only [findHoleAux, hm, if_true] at h
      exact ih (cnt + 1) e c l (by omega) (by
        intro j hj1 hj2
        by_cases hj : j = i + 1
        · exact hj ▸ hm
        · exact hfree j (by omega) hj2) h
    · simp only [findHoleAux, hm, if_false] at h
      split at h
      · simp only [Option.some.injEq, Prod.mk.injEq] at h
        refine ⟨e, h.1.symm, Nat.le_refl e,
          Or.inr ⟨i + 1, cnt, h.2.symm, hm, by omega, by assumption, ?_⟩⟩
        intro j hj1 hj2; exact hfree j (by omega) hj2
      · obtain ⟨ee, hc, hee, hrest⟩ := ih 0 (i + 1) c l (by omega) (by omega) h
        exact ⟨ee, hc, by omega, hrest⟩

lemma find_hole_spec {mark : Nat → Nat} {startingAt allocSize c l : Nat}
    (h : find_next_available_hole mark startingAt allocSize = some (c, l)) :
    ∃ ee, c = ee * LINE_SIZE ∧ ee ≤ startingAt / LINE_SIZE ∧ 1 ≤ startingAt / LINE_SIZE ∧
      (l = 0 ∨ ∃ ii cc, l = (ii + 2) * LINE_SIZE ∧ mark ii ≠ 0 ∧ cc + ii + 1 = ee ∧
        (allocSize + LINE_SIZE - 1) / LINE_SIZE < cc ∧ ∀ j, ii < j → j < ee → mark j = 0) := by
  unfold find_next_available_hole at h
  cases hsl : startingAt / LINE_SIZE with
  | zero => rw [hsl] at h; exact absurd h (by simp)
  | succ n =>
    rw [hsl] at h
    obtain ⟨ee, hc, hee, hrest⟩ :=
      findHoleAux_spec mark ((allocSize + LINE_SIZE - 1) / LINE_SIZE) n 0 (n + 1) c l
        (by omega) (by omega) h
    exact ⟨ee, hc, hee, by omega, hrest⟩

/-- Bounds of any returned hole: its limit does not exceed its cursor, and
its cursor stays at or below the line containing the scan's start. -/
lemma find_hole_bounds {mark : Nat → Nat} {startingAt allocSize c l : Nat}
    (h : find_next_available_hole mark startingAt allocSize = some (c, l)) :
    l ≤ c ∧ c ≤ startingAt / LINE_SIZE * LINE_SIZE ∧ LINE_SIZE ∣ l := by
  obtain ⟨ee, hc, hee, _, hrest⟩ := find_hole_spec h
  rcases hrest with hl | ⟨ii, cc, hl, _, hcnt, hlr, _⟩
  · subst hl hc
    exact ⟨Nat.zero_le _, Nat.mul_le_mul_right LINE_SIZE hee, ⟨0, rfl⟩⟩
  · subst hl hc
    have hcc : 0 < cc := Nat.lt_of_le_of_lt (Nat.zero_le _) hlr
    refine ⟨Nat.mul_le_mul_right LINE_SIZE (by omega : ii + 2 ≤ ee),
      Nat.mul_le_mul_right LINE_SIZE hee, ⟨ii + 2, Nat.mul_comm _ _⟩⟩

lemma checkedSub_eq_some {a b c : Nat} (h : checkedSub a b = some c) : b ≤ a ∧ c = a - b := by
  simp only [checkedSub] at h
  split at h
  · exact ⟨by assumption, (Option.some.inj h).symm⟩
  · simp at h

/-- `inner_alloc` preserves the block invariant on every path (including
failures, which may still have skipped to a new hole), never changes the
block base, and any returned pointer is word-aligned and addresses
`allocSize` bytes inside the block's payload range. -/
lemma innerAllocF_spec :
    ∀ (fuel : Nat) (b : BumpBlock) (s : Nat) (r : Option Nat × BumpBlock),
      wfInv b → innerAllocF fuel b s = some r →
      wfInv r.2 ∧ r.2.base = b.base ∧
        ∀ p, r.1 = some p → ALIGN ∣ p ∧ b.base ≤ p ∧ p + s ≤ b.base + BLOCK_CAPACITY := by
  intro fuel
  induction fuel with
  | zero => intro b s r _ h; simp [innerAllocF] at h
  | succ fuel ih =>
    intro b s r hb h
    obtain ⟨hb1, hb2, hb3⟩ := hb
    simp only [innerAllocF] at h
    split at h
    · -- checked_sub underflow: return None, state unchanged
      rename_i heq
      obtain rfl : (none, b) = r := Option.some.inj h
      exact ⟨⟨hb1, hb2, hb3⟩, rfl, by simp⟩
    · rename_i diff heq
      obtain ⟨hsub, rfl⟩ := checkedSub_eq_some heq
      split at h
      · rename_i hlt
        split at h
        · rename_i hrel
          split at h
          · -- hole found below the limit: skip to it and retry
            rename_i c l hfh
            have hbounds := find_hole_bounds hfh
            have hrelcap : b.limit - b.base ≤ BLOCK_CAPACITY := by omega
            have hcle : c ≤ b.limit - b.base :=
              le_trans hbounds.2.1 (Nat.div_mul_le_self _ _)
            have hlc := hbounds.1
            have hwf' : wfInv { b with cursor := b.base + c, limit := b.base + l } := by
              unfold wfInv
              dsimp only
              omega
            obtain ⟨h1, h2, h3⟩ := ih _ s r hwf' h
            exact ⟨h1, h2, h3⟩
          · -- no hole: return None, state unchanged
            obtain rfl : (none, b) = r := Option.some.inj h
            exact ⟨⟨hb1, hb2, hb3⟩, rfl, by simp⟩
        · -- the hole already starts at the block base: return None
          obtain rfl : (none, b) = r := Option.some.inj h
          exact ⟨⟨hb1, hb2, hb3⟩, rfl, by simp⟩
      · -- commit: bump the cursor down to the aligned candidate
        rename_i hge
        have hnext : b.limit ≤ alignDown (b.cursor - s) := Nat.le_of_not_lt hge
        obtain rfl :
            (some (alignDown (b.cursor - s)),
              { b with cursor := alignDown (b.cursor - s) }) = r := Option.some.inj h
        refine ⟨⟨hb1, hnext, ?_⟩, rfl, ?_⟩
        · exact le_trans (le_trans (alignDown_le _) (Nat.sub_le _ _)) hb3
        · intro p hp
          obtain rfl : alignDown (b.cursor - s) = p := Option.some.inj hp
          refine ⟨dvd_alignDown _, le_trans hb1 hnext, ?_⟩
          have h5 : alignDown (b.cursor - s) ≤ b.cursor - s := alignDown_le _
          omega

/-- Same facts for the fuel-wrapped `inner_alloc`. -/
lemma inner_alloc_spec (b : BumpBlock) (s : Nat) (hb : wfInv b) :
    wfInv (b.inner_alloc s).2 ∧ (b.inner_alloc s).2.base = b.base ∧
      ∀ p, (b.inner_alloc s).1 = some p →
        ALIGN ∣ p ∧ b.base ≤ p ∧ p + s ≤ b.base + BLOCK_CAPACITY := by
  unfold BumpBlock.inner_alloc
  cases hr : innerAllocF b.innerAllocFuel b s with
  | none =>
    simp only [Option.getD]
    refine ⟨hb, by simp, by simp⟩
  | some r =>
    simp only [Option.getD]
    exact innerAllocF_spec _ b s r hb hr

lemma LINE_SIZE_eq : LINE_SIZE = 128 := rfl

lemma ALIGN_eq : ALIGN = 8 := rfl

lemma BLOCK_CAPACITY_eq : BLOCK_CAPACITY = 16256 := rfl

/-- When `inner_alloc` actually enters a hole scan from a line-aligned
limit on a well-formed block, the limit of any hole it finds is at least a
full line lower.  The only candidate for a non-decreasing limit would be a
hole closed exactly at the starting line with a count of one, which forces
`lines_required = 0`, i.e. `alloc_size = 0`; but then the aligned
allocation candidate could not have been below the (aligned) limit. -/
lemma find_hole_strict {b : BumpBlock} {s c l : Nat}
    (hbase : ALIGN ∣ b.base) (hb : wfInv b)
    (hscan : alignDown (b.cursor - s) < b.limit)
    (hrel : LINE_SIZE ∣ b.limit - b.base)
    (hfh : find_next_available_hole b.lineMark (b.limit - b.base) s = some (c, l)) :
    l + LINE_SIZE ≤ b.limit - b.base := by
  obtain ⟨ee, hc, hee, hsl, hrest⟩ := find_hole_spec hfh
  rcases hrest with hl | ⟨ii, cc, hl, hmark, hcnt, hlr, hfree⟩
  · subst hl
    simp only [LINE_SIZE_eq] at hrel hsl ⊢
    omega
  · subst hl
    have hcc : 0 < cc := Nat.lt_of_le_of_lt (Nat.zero_le _) hlr
    rcases Nat.lt_or_ge (ii + 2) ((b.limit - b.base) / LINE_SIZE) with hlt | hge
    · simp only [LINE_SIZE_eq] at hrel hlt ⊢
      omega
    · -- forced corner: the hole closes exactly at the starting line
      exfalso
      have hs0 : s = 0 := by
        simp only [LINE_SIZE_eq] at hlr
        omega
      have hlim8 : ALIGN ∣ b.limit := by
        obtain ⟨hb1, _, _⟩ := hb
        simp only [ALIGN_eq] at hbase ⊢
        simp only [LINE_SIZE_eq] at hrel
        omega
      have hle := le_alignDown hlim8 hb.2.1
      subst hs0
      rw [Nat.sub_zero] at hscan
      omega

/-- The combined decrease fact: from a well-formed, properly based block,
a hole found during the scan always has a strictly smaller limit than the
current one. -/
lemma find_hole_scan_lt {b : BumpBlock} {s c l : Nat}
    (hbase : ALIGN ∣ b.base) (hb : wfInv b)
    (hscan : alignDown (b.cursor - s) < b.limit)
    (hfh : find_next_available_hole b.lineMark (b.limit - b.base) s = some (c, l)) :
    l < b.limit - b.base := by
  by_cases hdvd : LINE_SIZE ∣ b.limit - b.base
  · have := find_hole_strict hbase hb hscan hdvd hfh
    simp only [LINE_SIZE_eq] at this
    omega
  · obtain ⟨hlc, hcb, _⟩ := find_hole_bounds hfh
    have hdm : (b.limit - b.base) / LINE_SIZE * LINE_SIZE ≤ b.limit - b.base :=
      Nat.div_mul_le_self _ _
    simp only [LINE_SIZE_eq] at hdvd hcb hdm
    omega

/-- Fuel lemma for limits that sit on a line boundary: one unit of fuel
per line of the current relative limit suffices. -/
lemma innerAllocF_isSome_of_dvd :
    ∀ (fuel : Nat) (b : BumpBlock) (s : Nat), ALIGN ∣ b.base → wfInv b →
      LINE_SIZE ∣ b.limit - b.base → (b.limit - b.base) / LINE_SIZE + 1 ≤ fuel →
      (innerAllocF fuel b s).isSome := by
  intro fuel
  induction fuel with
  | zero =>
    intro b s _ _ _ hf
    simp only [LINE_SIZE_eq] at hf
    omega
  | succ fuel ih =>
    intro b s hbase hb hdvd hf
    simp only [innerAllocF]
    cases hcs : checkedSub b.cursor s with
    | none => simp
    | some diff =>
      obtain ⟨hsub, rfl⟩ := checkedSub_eq_some hcs
      simp only
      by_cases hlt : alignDown (b.cursor - s) < b.limit
      · rw [if_pos hlt]
        by_cases hrel : 0 < b.limit - b.base
        · rw [if_pos hrel]
          cases hfh : find_next_available_hole b.lineMark (b.limit - b.base) s with
          | none => simp
          | some cl =>
            obtain ⟨c, l⟩ := cl
            simp only
            have hbounds := find_hole_bounds hfh
            have hstrict := find_hole_strict hbase hb hlt hdvd hfh
            have hrelcap : b.limit - b.base ≤ BLOCK_CAPACITY := by
              obtain ⟨_, h2, h3⟩ := hb
              omega
            have hcle : c ≤ b.limit - b.base :=
              le_trans hbounds.2.1 (Nat.div_mul_le_self _ _)
            have hwf' : wfInv { b with cursor := b.base + c, limit := b.base + l } := by
              unfold wfInv
              dsimp only
              have := hbounds.1
              omega
            refine ih { b with cursor := b.base + c, limit := b.base + l } s hbase hwf' ?_ ?_
            · show LINE_SIZE ∣ b.base + l - b.base
              have hll : b.base + l - b.base = l := by omega
              rw [hll]
              exact hbounds.2.2
            · show (b.base + l - b.base) / LINE_SIZE + 1 ≤ fuel
              have hll : b.base + l - b.base = l := by omega
              rw [hll]
              obtain ⟨a, ha⟩ := hbounds.2.2
              obtain ⟨a2, ha2⟩ := hdvd
              simp only [LINE_SIZE_eq] at ha ha2 hstrict hf ⊢
              omega
        · rw [if_neg hrel]
          simp
      · rw [if_neg hlt]
        simp

/-- Fuel sufficiency from an arbitrary well-formed state: after at most
one scan the limit is line-aligned, so `rel / LINE_SIZE + 2` units of fuel
always reach an answer. -/
lemma innerAllocF_terminates (fuel : Nat) (b : BumpBlock) (s : Nat)
    (hbase : ALIGN ∣ b.base) (hb : wfInv b)
    (hf : (b.limit - b.base) / LINE_SIZE + 2 ≤ fuel) :
    (innerAllocF fuel b s).isSome := by
  cases fuel with
  | zero =>
    simp only [LINE_SIZE_eq] at hf
    omega
  | succ fuel =>
    simp only [innerAllocF]
    cases hcs : checkedSub b.cursor s with
    | none => simp
    | some diff =>
      obtain ⟨hsub, rfl⟩ := checkedSub_eq_some hcs
      simp only
      by_cases hlt : alignDown (b.cursor - s) < b.limit
      · rw [if_pos hlt]
        by_cases hrel : 0 < b.limit - b.base
        · rw [if_pos hrel]
          cases hfh : find_next_available_hole b.lineMark (b.limit - b.base) s with
          | none => simp
          | some cl =>
            obtain ⟨c, l⟩ := cl
            simp only
            have hbounds := find_hole_bounds hfh
            have hrelcap : b.limit - b.base ≤ BLOCK_CAPACITY := by
              obtain ⟨_, h2, h3⟩ := hb
              omega
            have hcle : c ≤ b.limit - b.base :=
              le_trans hbounds.2.1 (Nat.div_mul_le_self _ _)
            have hwf' : wfInv { b with cursor := b.base + c, limit := b.base + l } := by
              unfold wfInv
              dsimp only
              have := hbounds.1
              omega
            refine innerAllocF_isSome_of_dvd fuel
              { b with cursor := b.base + c, limit := b.base + l } s hbase hwf' ?_ ?_
            · show LINE_SIZE ∣ b.base + l - b.base
              have hll : b.base + l - b.base = l := by omega
              rw [hll]
              exact hbounds.2.2
            · show (b.base + l - b.base) / LINE_SIZE + 1 ≤ fuel
              have hll : b.base + l - b.base = l := by omega
              rw [hll]
              obtain ⟨a, ha⟩ := hbounds.2.2
              have hcdm : c ≤ (b.limit - b.base) / LINE_SIZE * LINE_SIZE := hbounds.2.1
              have hlc := hbounds.1
              simp only [LINE_SIZE_eq] at ha hcdm hf ⊢
              omega
        · rw [if_neg hrel]
          simp
      · rw [if_neg hlt]
        simp

lemma freshBlock_wf (k : Nat) : BlockWF (freshBlock k) := by
  refine ⟨⟨k * 2048, by simp only [freshBlock, BLOCK_SIZE, ALIGN]; ring⟩, ?_, ?_, ?_⟩
  · exact Nat.le_refl _
  · exact Nat.le_add_right _ _
  · exact Nat.le_refl _

/-- `inner_alloc` on a well-formed block: everything from
`inner_alloc_spec`, plus preservation of base alignment. -/
lemma inner_alloc_wf (b : BumpBlock) (s : Nat) (hb : BlockWF b) :
    BlockWF (b.inner_alloc s).2 ∧ (b.inner_alloc s).2.base = b.base ∧
      ∀ p, (b.inner_alloc s).1 = some p →
        ALIGN ∣ p ∧ b.base ≤ p ∧ p + s ≤ b.base + BLOCK_CAPACITY := by
  obtain ⟨hb8, hbw⟩ := hb
  obtain ⟨h1, h2, h3⟩ := inner_alloc_spec b s hbw
  exact ⟨⟨by rw [h2]; exact hb8, h1⟩, h2, h3⟩

/-- `inner_alloc_wf`, stated on a destructured call result. -/
lemma inner_alloc_wf2 {b : BumpBlock} {s : Nat} {r : Option Nat} {b' : BumpBlock}
    (hb : BlockWF b) (h : b.inner_alloc s = (r, b')) :
    BlockWF b' ∧ b'.base = b.base ∧
      ∀ p, r = some p →
        ALIGN ∣ p ∧ b.base ≤ p ∧ p + s ≤ b.base + BLOCK_CAPACITY := by
  obtain ⟨h1, h2, h3⟩ := inner_alloc_wf b s hb
  rw [h] at h1 h2 h3
  exact ⟨h1, h2, h3⟩

lemma wfState_head {bl : BlockList} (h : bl.wfState) {b : BumpBlock}
    (hb : bl.head = some b) : BlockWF b := h b (Or.inl hb)

lemma wfState_overflow {bl : BlockList} (h : bl.wfState) {b : BumpBlock}
    (hb : bl.overflow = some b) : BlockWF b := h b (Or.inr (Or.inl hb))

lemma wfState_free {bl : BlockList} (h : bl.wfState) {b : BumpBlock}
    (hb : b ∈ bl.free) : BlockWF b := h b (Or.inr (Or.inr (Or.inl hb)))

lemma wfState_recycle {bl : BlockList} (h : bl.wfState) {b : BumpBlock}
    (hb : b ∈ bl.recycle) : BlockWF b := h b (Or.inr (Or.inr (Or.inr (Or.inl hb))))

lemma wfState_used {bl : BlockList} (h : bl.wfState) {b : BumpBlock}
    (hb : b ∈ bl.used) : BlockWF b := h b (Or.inr (Or.inr (Or.inr (Or.inr hb))))

/-- `overflow_alloc` keeps the head and the used list untouched (no head
rotation), keeps every owned block well-formed, and returns a word-aligned
pointer addressing `allocSize` bytes inside one of the resulting list's
blocks. -/
lemma overflow_alloc_spec {bl : BlockList} {s p : Nat} {bl' : BlockList}
    (hwf : bl.wfState)
    (h : bl.overflow_alloc s = some (.ok (p, bl'))) :
    ALIGN ∣ p ∧ bl'.wfState ∧ bl'.head = bl.head ∧ bl'.used = bl.used ∧
      ∃ blk, MemBlock bl' blk ∧ blk.base ≤ p ∧ p + s ≤ blk.base + BLOCK_CAPACITY := by
  unfold BlockList.overflow_alloc at h
  split at h
  · simp at h
  cases hov : bl.overflow with
  | some ov =>
    simp only [hov] at h
    have hovwf := wfState_overflow hwf hov
    rcases hia : ov.inner_alloc s with ⟨_ | space, ov'⟩
    · -- the overflow block is full: replace it and push it to recycle
      obtain ⟨hwf1, hbase1, hptr1⟩ := inner_alloc_wf2 hovwf hia
      simp only [hia] at h
      cases hfr : bl.free with
      | cons fb rest =>
        simp only [hfr] at h
        have hfbwf := wfState_free hwf (hfr ▸ List.mem_cons_self fb rest)
        rcases hia2 : fb.inner_alloc s with ⟨_ | space, fb'⟩
        · simp only [hia2] at h
          exact Option.noConfusion h
        · obtain ⟨hwf2, hbase2, hptr2⟩ := inner_alloc_wf2 hfbwf hia2
          simp only [hia2, Option.some.injEq, Except.ok.injEq, Prod.mk.injEq] at h
          obtain ⟨rfl, rfl⟩ := h
          obtain ⟨hp8, hpl, hpu⟩ := hptr2 space rfl
          refine ⟨hp8, ?_, rfl, rfl, fb', Or.inr (Or.inl rfl), by omega, by omega⟩
          intro blk hm
          rcases hm with hm | hm | hm | hm | hm
          · exact wfState_head hwf hm
          · exact (Option.some.inj hm) ▸ hwf2
          · exact wfState_free hwf (hfr ▸ List.mem_cons_of_mem fb hm)
          · rcases List.mem_cons.mp hm with rfl | hm2
            · exact hwf1
            · exact wfState_recycle hwf hm2
          · exact wfState_used hwf hm
      | nil =>
        simp only [hfr] at h
        have hfbwf := freshBlock_wf bl.nextBase
        rcases hia2 : (freshBlock bl.nextBase).inner_alloc s with ⟨_ | space, fb'⟩
        · simp only [hia2] at h
          exact Option.noConfusion h
        · obtain ⟨hwf2, hbase2, hptr2⟩ := inner_alloc_wf2 hfbwf hia2
          simp only [hia2, Option.some.injEq, Except.ok.injEq, Prod.mk.injEq] at h
          obtain ⟨rfl, rfl⟩ := h
          obtain ⟨hp8, hpl, hpu⟩ := hptr2 space rfl
          refine ⟨hp8, ?_, rfl, rfl, fb', Or.inr (Or.inl rfl), by omega, by omega⟩
          intro blk hm
          rcases hm with hm | hm | hm | hm | hm
          · exact wfState_head hwf hm
          · exact (Option.some.inj hm) ▸ hwf2
          · exact absurd hm (List.not_mem_nil blk)
          · rcases List.mem_cons.mp hm with rfl | hm2
            · exact hwf1
            · exact wfState_recycle hwf hm2
          · exact wfState_used hwf hm
    · -- the overflow block served the request
      obtain ⟨hwf1, hbase1, hptr1⟩ := inner_alloc_wf2 hovwf hia
      simp only [hia, Option.some.injEq, Except.ok.injEq, Prod.mk.injEq] at h
      obtain ⟨rfl, rfl⟩ := h
      obtain ⟨hp8, hpl, hpu⟩ := hptr1 space rfl
      refine ⟨hp8, ?_, rfl, rfl, ov', Or.inr (Or.inl rfl), by omega, by omega⟩
      intro blk hm
      rcases hm with hm | hm | hm | hm | hm
      · exact wfState_head hwf hm
      · exact (Option.some.inj hm) ▸ hwf1
      · exact wfState_free hwf hm
      · exact wfState_recycle hwf hm
      · exact wfState_used hwf hm
  | none =>
    simp only [hov] at h
    unfold BlockList.get_free_block at h
    cases hfr : bl.free with
    | cons fb rest =>
      simp only [hfr] at h
      have hfbwf := wfState_free hwf (hfr ▸ List.mem_cons_self fb rest)
      rcases hia : fb.inner_alloc s with ⟨_ | space, fb'⟩
      · simp only [hia] at h
        exact Option.noConfusion h
      · obtain ⟨hwf1, hbase1, hptr1⟩ := inner_alloc_wf2 hfbwf hia
        simp only [hia, Option.some.injEq, Except.ok.injEq, Prod.mk.injEq] at h
        obtain ⟨rfl, rfl⟩ := h
        obtain ⟨hp8, hpl, hpu⟩ := hptr1 space rfl
        refine ⟨hp8, ?_, rfl, rfl, fb', Or.inr (Or.inl rfl), by omega, by omega⟩
        intro blk hm
        rcases hm with hm | hm | hm | hm | hm
        · exact wfState_head hwf hm
        · exact (Option.some.inj hm) ▸ hwf1
        · exact wfState_free hwf (hfr ▸ List.mem_cons_of_mem fb hm)
        · exact wfState_recycle hwf hm
        · exact wfState_used hwf hm
    | nil =>
      simp only [hfr] at h
      have hfbwf := freshBlock_wf bl.nextBase
      rcases hia : (freshBlock bl.nextBase).inner_alloc s with ⟨_ | space, fb'⟩
      · simp only [hia] at h
        exact Option.noConfusion h
      · obtain ⟨hwf1, hbase1, hptr1⟩ := inner_alloc_wf2 hfbwf hia
        simp only [hia, Option.some.injEq, Except.ok.injEq, Prod.mk.injEq] at h
        obtain ⟨rfl, rfl⟩ := h
        obtain ⟨hp8, hpl, hpu⟩ := hptr1 space rfl
        refine ⟨hp8, ?_, rfl, rfl, fb', Or.inr (Or.inl rfl), by omega, by omega⟩
        intro blk hm
        rcases hm with hm | hm | hm | hm | hm
        · exact wfState_head hwf hm
        · exact (Option.some.inj hm) ▸ hwf1
        · exact absurd hm (List.not_mem_nil blk)
        · exact wfState_recycle hwf hm
        · exact wfState_used hwf hm

/-- `find_space` keeps every owned block well-formed and returns a
word-aligned pointer addressing `allocSize` bytes inside the payload range
of one of the resulting list's blocks. -/
lemma findSpaceF_spec :
    ∀ (fuel : Nat) (bl : BlockList) (s : Nat) (cls : SizeClass) (p : Nat) (bl' : BlockList),
      bl.wfState → findSpaceF fuel bl s cls = some (.ok (p, bl')) →
      ALIGN ∣ p ∧ bl'.wfState ∧
        ∃ blk, MemBlock bl' blk ∧ blk.base ≤ p ∧ p + s ≤ blk.base + BLOCK_CAPACITY := by
  intro fuel
  induction fuel with
  | zero => intro bl s cls p bl' _ h; simp [findSpaceF] at h
  | succ fuel ih =>
    intro bl s cls p bl' hwf h
    simp only [findSpaceF] at h
    split at h
    · simp at h
    cases hhd : bl.head with
    | some head =>
      simp only [hhd] at h
      have hhdwf := wfState_head hwf hhd
      split at h
      · -- medium request larger than the head's hole: overflow route
        obtain ⟨hp8, hwf', hh, hu, blk, hm, hb1, hb2⟩ := overflow_alloc_spec hwf h
        exact ⟨hp8, hwf', blk, hm, hb1, hb2⟩
      · rcases hia : head.inner_alloc s with ⟨_ | space, head'⟩
        · -- head failed: rotate and retry
          obtain ⟨hwf1, hbase1, _⟩ := inner_alloc_wf2 hhdwf hia
          simp only [hia] at h
          cases hrc : bl.recycle with
          | cons fb rest =>
            simp only [hrc] at h
            have hfbwf := wfState_recycle hwf (hrc ▸ List.mem_cons_self fb rest)
            refine ih _ s cls p bl' ?_ h
            intro blk hm
            rcases hm with hm | hm | hm | hm | hm
            · exact (Option.some.inj hm) ▸ hfbwf
            · exact wfState_overflow hwf hm
            · exact wfState_free hwf hm
            · exact wfState_recycle hwf (hrc ▸ List.mem_cons_of_mem fb hm)
            · rcases List.mem_cons.mp hm with rfl | hm2
              · exact hwf1
              · exact wfState_used hwf hm2
          | nil =>
            simp only [hrc] at h
            cases hfr : bl.free with
            | cons fb rest =>
              simp only [hfr] at h
              have hfbwf := wfState_free hwf (hfr ▸ List.mem_cons_self fb rest)
              refine ih _ s cls p bl' ?_ h
              intro blk hm
              rcases hm with hm | hm | hm | hm | hm
              · exact (Option.some.inj hm) ▸ hfbwf
              · exact wfState_overflow hwf hm
              · exact wfState_free hwf (hfr ▸ List.mem_cons_of_mem fb hm)
              · exact absurd hm (List.not_mem_nil blk)
              · rcases List.mem_cons.mp hm with rfl | hm2
                · exact hwf1
                · exact wfState_used hwf hm2
            | nil =>
              simp only [hfr] at h
              refine ih _ s cls p bl' ?_ h
              intro blk hm
              rcases hm with hm | hm | hm | hm | hm
              · exact (Option.some.inj hm) ▸ freshBlock_wf bl.nextBase
              · exact wfState_overflow hwf hm
              · exact absurd hm (List.not_mem_nil blk)
              · exact absurd hm (List.not_mem_nil blk)
              · rcases List.mem_cons.mp hm with rfl | hm2
                · exact hwf1
                · exact wfState_used hwf hm2
        · -- head served the request
          obtain ⟨hwf1, hbase1, hptr1⟩ := inner_alloc_wf2 hhdwf hia
          simp only [hia, Option.some.injEq, Except.ok.injEq, Prod.mk.injEq] at h
          obtain ⟨rfl, rfl⟩ := h
          obtain ⟨hp8, hpl, hpu⟩ := hptr1 space rfl
          refine ⟨hp8, ?_, head', Or.inl rfl, by omega, by omega⟩
          intro blk hm
          rcases hm with hm | hm | hm | hm | hm
          · exact (Option.some.inj hm) ▸ hwf1
          · exact wfState_overflow hwf hm
          · exact wfState_free hwf hm
          · exact wfState_recycle hwf hm
          · exact wfState_used hwf hm
    | none =>
      -- no head yet: install one
      simp only [hhd] at h
      unfold BlockList.get_free_block at h
      cases hfr : bl.free with
      | cons fb rest =>
        simp only [hfr] at h
        have hfbwf := wfState_free hwf (hfr ▸ List.mem_cons_self fb rest)
        rcases hia : fb.inner_alloc s with ⟨_ | space, fb'⟩
        · simp only [hia] at h
          exact Option.noConfusion h
        · obtain ⟨hwf1, hbase1, hptr1⟩ := inner_alloc_wf2 hfbwf hia
          simp only [hia, Option.some.injEq, Except.ok.injEq, Prod.mk.injEq] at h
          obtain ⟨rfl, rfl⟩ := h
          obtain ⟨hp8, hpl, hpu⟩ := hptr1 space rfl
          refine ⟨hp8, ?_, fb', Or.inl rfl, by omega, by omega⟩
          intro blk hm
          rcases hm with hm | hm | hm | hm | hm
          · exact (Option.some.inj hm) ▸ hwf1
          · exact wfState_overflow hwf hm
          · exact wfState_free hwf (hfr ▸ List.mem_cons_of_mem fb hm)
          · exact wfState_recycle hwf hm
          · exact wfState_used hwf hm
      | nil =>
        simp only [hfr] at h
        rcases hia : (freshBlock bl.nextBase).inner_alloc s with ⟨_ | space, fb'⟩
        · simp only [hia] at h
          exact Option.noConfusion h
        · obtain ⟨hwf1, hbase1, hptr1⟩ := inner_alloc_wf2 (freshBlock_wf bl.nextBase) hia
          simp only [hia, Option.some.injEq, Except.ok.injEq, Prod.mk.injEq] at h
          obtain ⟨rfl, rfl⟩ := h
          obtain ⟨hp8, hpl, hpu⟩ := hptr1 space rfl
          refine ⟨hp8, ?_, fb', Or.inl rfl, by omega, by omega⟩
          intro blk hm
          rcases hm with hm | hm | hm | hm | hm
          · exact (Option.some.inj hm) ▸ hwf1
          · exact wfState_overflow hwf hm
          · exact absurd hm (List.not_mem_nil blk)
          · exact wfState_recycle hwf hm
          · exact wfState_used hwf hm

lemma alignDown_eq_self {x : Nat} (h : ALIGN ∣ x) : alignDown x = x := by
  simp only [ALIGN] at h
  simp only [alignDown, ALIGN]
  omega

/-- One commit step of `inner_alloc`: the aligned candidate fits in the
current hole, so the cursor is bumped down to it. -/
lemma innerAllocF_commit {fuel : Nat} {b : BumpBlock} {s : Nat}
    (hsub : s ≤ b.cursor) (hge : ¬ alignDown (b.cursor - s) < b.limit) :
    innerAllocF (fuel + 1) b s =
      some (some (alignDown (b.cursor - s)),
        { b with cursor := alignDown (b.cursor - s) }) := by
  simp only [innerAllocF, checkedSub, if_pos hsub]
  rw [if_neg hge]

lemma inner_alloc_commit {b : BumpBlock} {s : Nat}
    (hsub : s ≤ b.cursor) (hge : ¬ alignDown (b.cursor - s) < b.limit) :
    b.inner_alloc s =
      (some (alignDown (b.cursor - s)), { b with cursor := alignDown (b.cursor - s) }) := by
  unfold BumpBlock.inner_alloc BumpBlock.innerAllocFuel
  rw [innerAllocF_commit hsub hge]
  rfl

lemma zeroRange_get (mem : Nat → Nat) (start : Nat) :
    ∀ n i, i < n → zeroRange mem start n (start + i) = 0 := by
  intro n
  induction n with
  | zero => intro i h; omega
  | succ n ih =>
    intro i h
    simp only [zeroRange, writeByte]
    by_cases hi : i = n
    · rw [if_pos (by omega)]
    · rw [if_neg (by omega)]
      exact ih i (by omega)

lemma emptyBlockList_wf : emptyBlockList.wfState := by
  intro b hm
  rcases hm with hm | hm | hm | hm | hm <;> simp [emptyBlockList] at hm

/-- `overflow_alloc` never touches the head or the used list. -/
lemma overflow_alloc_preserves {bl : BlockList} {s p : Nat} {bl' : BlockList}
    (h : bl.overflow_alloc s = some (.ok (p, bl'))) :
    bl'.head = bl.head ∧ bl'.used = bl.used := by
  unfold BlockList.overflow_alloc at h
  split at h
  · simp at h
  cases hov : bl.overflow with
  | some ov =>
    simp only [hov] at h
    rcases hia : ov.inner_alloc s with ⟨_ | space, ov'⟩
    · simp only [hia] at h
      cases hfr : bl.free with
      | cons fb rest =>
        simp only [hfr] at h
        rcases hia2 : fb.inner_alloc s with ⟨_ | space, fb'⟩
        · simp only [hia2] at h
          exact Option.noConfusion h
        · simp only [hia2, Option.some.injEq, Except.ok.injEq, Prod.mk.injEq] at h
          obtain ⟨rfl, rfl⟩ := h
          exact ⟨rfl, rfl⟩
      | nil =>
        simp only [hfr] at h
        rcases hia2 : (freshBlock bl.nextBase).inner_alloc s with ⟨_ | space, fb'⟩
        · simp only [hia2] at h
          exact Option.noConfusion h
        · simp only [hia2, Option.some.injEq, Except.ok.injEq, Prod.mk.injEq] at h
          obtain ⟨rfl, rfl⟩ := h
          exact ⟨rfl, rfl⟩
    · simp only [hia, Option.some.injEq, Except.ok.injEq, Prod.mk.injEq] at h
      obtain ⟨rfl, rfl⟩ := h
      exact ⟨rfl, rfl⟩
  | none =>
    simp only [hov] at h
    unfold BlockList.get_free_block at h
    cases hfr : bl.free with
    | cons fb rest =>
      simp only [hfr] at h
      rcases hia : fb.inner_alloc s with ⟨_ | space, fb'⟩
      · simp only [hia] at h
        exact Option.noConfusion h
      · simp only [hia, Option.some.injEq, Except.ok.injEq, Prod.mk.injEq] at h
        obtain ⟨rfl, rfl⟩ := h
        exact ⟨rfl, rfl⟩
    | nil =>
      simp only [hfr] at h
      rcases hia : (freshBlock bl.nextBase).inner_alloc s with ⟨_ | space, fb'⟩
      · simp only [hia] at h
        exact Option.noConfusion h
      · simp only [hia, Option.some.injEq, Except.ok.injEq, Prod.mk.injEq] at h
        obtain ⟨rfl, rfl⟩ := h
        exact ⟨rfl, rfl⟩

/-- Inversion of a successful `alloc`: the payload pointer is the space
returned by `find_space` plus the padded header size. -/
lemma heapAlloc_inv {bl : BlockList} {hs os p : Nat} {bl' : BlockList}
    (h : heapAlloc bl hs os = some (.ok (p, bl'))) :
    ∃ space cls,
      SizeClass.get_for_size
        (add_alignment_padding (add_alignment_padding hs + os)) = .ok cls ∧
      bl.find_space (add_alignment_padding (add_alignment_padding hs + os)) cls =
        some (.ok (space, bl')) ∧
      p = space + add_alignment_padding hs := by
  simp only [heapAlloc] at h
  cases hcls : SizeClass.get_for_size
      (add_alignment_padding (add_alignment_padding hs + os)) with
  | error e => simp only [hcls] at h; simp at h
  | ok cls =>
    simp only [hcls] at h
    rcases hfs : bl.find_space (add_alignment_padding (add_alignment_padding hs + os)) cls
      with _ | e | ⟨space, bl''⟩
    · simp only [hfs] at h
      exact Option.noConfusion h
    · simp only [hfs] at h
      simp at h
    · simp only [hfs, Option.some.injEq, Except.ok.injEq, Prod.mk.injEq] at h
      obtain ⟨rfl, rfl⟩ := h
      exact ⟨space, cls, rfl, hfs, rfl⟩

/-- Inversion of a successful `alloc_array`: the payload pointer is the
space plus the raw (unpadded) header size. -/
lemma heapAllocArray_inv {bl : BlockList} {hs n p : Nat} {bl' : BlockList}
    (h : heapAllocArray bl hs n = some (.ok (p, bl'))) :
    ∃ space cls,
      SizeClass.get_for_size
        (add_alignment_padding (add_alignment_padding hs + n)) = .ok cls ∧
      bl.find_space (add_alignment_padding (add_alignment_padding hs + n)) cls =
        some (.ok (space, bl')) ∧
      p = space + hs := by
  simp only [heapAllocArray] at h
  cases hcls : SizeClass.get_for_size
      (add_alignment_padding (add_alignment_padding hs + n)) with
  | error e => simp only [hcls] at h; simp at h
  | ok cls =>
    simp only [hcls] at h
    rcases hfs : bl.find_space (add_alignment_padding (add_alignment_padding hs + n)) cls
      with _ | e | ⟨space, bl''⟩
    · simp only [hfs] at h
      exact Option.noConfusion h
    · simp only [hfs] at h
      simp at h
    · simp only [hfs, Option.some.injEq, Except.ok.injEq, Prod.mk.injEq] at h
      obtain ⟨rfl, rfl⟩ := h
      exact ⟨space, cls, rfl, hfs, rfl⟩

/-- Inversion of a successful `alloc_array` with its memory effect. -/
lemma heapAllocArrayMem_inv {bl : BlockList} {hs n p : Nat} {bl' : BlockList}
    {mem hdr m' : Nat → Nat}
    (h : heapAllocArrayMem bl hs n mem hdr = some (.ok (p, (bl', m')))) :
    ∃ space cls,
      SizeClass.get_for_size
        (add_alignment_padding (add_alignment_padding hs + n)) = .ok cls ∧
      bl.find_space (add_alignment_padding (add_alignment_padding hs + n)) cls =
        some (.ok (space, bl')) ∧
      p = space + hs ∧
      m' = zeroRange (hdrWrite mem space hs hdr) (space + hs) n := by
  simp only [heapAllocArrayMem] at h
  cases hcls : SizeClass.get_for_size
      (add_alignment_padding (add_alignment_padding hs + n)) with
  | error e => simp only [hcls] at h; simp at h
  | ok cls =>
    simp only [hcls] at h
    rcases hfs : bl.find_space (add_alignment_padding (add_alignment_padding hs + n)) cls
      with _ | e | ⟨space, bl''⟩
    · simp only [hfs] at h
      exact Option.noConfusion h
    · simp only [hfs] at h
      simp at h
    · simp only [hfs, Option.some.injEq, Except.ok.injEq, Prod.mk.injEq] at h
      obtain ⟨rfl, rfl, rfl⟩ := h
      exact ⟨space, cls, rfl, hfs, rfl, rfl⟩
lemma find_space_unfold (bl : BlockList) (s : Nat) (cls : SizeClass) :
    bl.find_space s cls =
      findSpaceF (bl.recycle.length + bl.free.length + 1 + 1) bl s cls := rfl

/-- On the empty heap, any non-Large request of aligned size at most
`BLOCK_CAPACITY` is served from a fresh head block at the very top of its
payload range. -/
lemma find_space_empty (a : Nat) (cls : SizeClass) (hcls : cls ≠ SizeClass.Large)
    (h8 : ALIGN ∣ a) (hle : a ≤ BLOCK_CAPACITY) :
    ∃ bl', emptyBlockList.find_space a cls =
      some (.ok (16384 + BLOCK_CAPACITY - a, bl')) := by
  have hcur : (freshBlock 1).cursor = 16384 + BLOCK_CAPACITY := rfl
  have hlim : (freshBlock 1).limit = 16384 := rfl
  have hsub : a ≤ (freshBlock 1).cursor := by
    rw [hcur]
    simp only [BLOCK_CAPACITY_eq] at hle ⊢
    omega
  have hdvd : ALIGN ∣ (freshBlock 1).cursor - a := by
    rw [hcur]
    simp only [ALIGN_eq, BLOCK_CAPACITY_eq] at h8 ⊢
    omega
  have hnext : alignDown ((freshBlock 1).cursor - a) = 16384 + BLOCK_CAPACITY - a := by
    rw [alignDown_eq_self hdvd, hcur]
  have hge : ¬ alignDown ((freshBlock 1).cursor - a) < (freshBlock 1).limit := by
    rw [hnext, hlim]
    simp only [BLOCK_CAPACITY_eq] at hle ⊢
    omega
  have hia := inner_alloc_commit hsub hge
  refine ⟨{ emptyBlockList with
      head := some { base := 16384, cursor := 16384 + BLOCK_CAPACITY - a, limit := 16384,
                     lineMark := fun _ => FREE }
      nextBase := 2 }, ?_⟩
  rw [find_space_unfold]
  show findSpaceF (0 + 0 + 1 + 1) emptyBlockList a cls = _
  simp only [findSpaceF]
  rw [if_neg hcls]
  simp only [emptyBlockList, BlockList.get_free_block]
  simp only [hia, hnext]
  rfl
/-- C1: whenever `find_next_available_hole` closes a candidate hole
against a marked line (every returned hole with non-zero limit), the count
of consecutive free lines above that marked line strictly exceeds
`lines_required = ceil(alloc_size / LINE_SIZE)`, and the returned bounds
are `cursor = end * LINE_SIZE` and `limit = (index + 2) * LINE_SIZE` (the
+2 conservative skip); in particular, with lines {0,1,2,4,10} marked, a
request of 128 bytes starting at offset 1280 returns the hole
(cursor = 1280, limit = 768). -/
theorem c1_hole_close_against_marked :
    (∀ (mark : Nat → Nat) (startingAt allocSize c l : Nat),
      find_next_available_hole mark startingAt allocSize = some (c, l) → l ≠ 0 →
      ∃ index e cnt, mark index ≠ FREE ∧ cnt + index + 1 = e ∧
        (allocSize + LINE_SIZE - 1) / LINE_SIZE < cnt ∧
        c = e * LINE_SIZE ∧ l = (index + 2) * LINE_SIZE ∧
        ∀ j, index < j → j < e → mark j = FREE) ∧
    find_next_available_hole markS1 1280 128 = some (1280, 768) := by
  constructor
  · intro mark startingAt allocSize c l h hl
    obtain ⟨ee, hc, hee, hsl, hrest⟩ := find_hole_spec h
    rcases hrest with rfl | ⟨ii, cc, hll, hmark, hcnt, hlr, hfree⟩
    · exact absurd rfl hl
    · exact ⟨ii, ee, cc, hmark, hcnt, hlr, hc, hll, hfree⟩
  · decide

theorem c1_hole_close_against_marked_witness :
    ∃ index e cnt, markS1 index ≠ FREE ∧ cnt + index + 1 = e ∧
      (128 + LINE_SIZE - 1) / LINE_SIZE < cnt ∧
      (1280 : Nat) = e * LINE_SIZE ∧ (768 : Nat) = (index + 2) * LINE_SIZE ∧
      ∀ j, index < j → j < e → markS1 j = FREE :=
  c1_hole_close_against_marked.1 markS1 1280 128 1280 768 (by decide) (by decide)

/-- C3: the invariant `block_base ≤ limit ≤ cursor ≤ block_base +
BLOCK_CAPACITY` holds for a fresh block and is preserved by `inner_alloc`
(with any size, including paths that skip to a new hole), `reset`,
`mark_line` and `mark_block`. -/
theorem c3_bump_block_invariant :
    (∀ k, wfInv (freshBlock k)) ∧
    (∀ (b : BumpBlock) (s : Nat), wfInv b → wfInv (b.inner_alloc s).2) ∧
    (∀ b : BumpBlock, wfInv b.reset) ∧
    (∀ (b : BumpBlock) (i : Nat) (b' : BumpBlock),
      b.mark_line i = some b' → wfInv b → wfInv b') ∧
    (∀ b : BumpBlock, wfInv b → wfInv b.mark_block) := by
  refine ⟨?_, ?_, ?_, ?_, ?_⟩
  · intro k
    exact (freshBlock_wf k).2
  · intro b s hb
    exact (inner_alloc_spec b s hb).1
  · intro b
    exact ⟨Nat.le_refl _, Nat.le_add_right _ _, Nat.le_refl _⟩
  · intro b i b' h hb
    unfold BumpBlock.mark_line at h
    split at h
    · exact Option.noConfusion h
    · obtain rfl := Option.some.inj h
      exact hb
  · intro b hb
    exact hb

theorem c3_bump_block_invariant_witness :
    wfInv ((freshBlock 0).inner_alloc 8).2 :=
  c3_bump_block_invariant.2.1 (freshBlock 0) 8
    ⟨Nat.le_refl _, Nat.le_add_right _ _, Nat.le_refl _⟩

/-- C4 as stated is false: refuted on `c4Block` (hole `[1280, 1536)`, all
lines free below), where `inner_alloc 512` succeeds after a hole skip and
the new hole size is 768, not `h - round_up(512, ALIGN)` (which is 256 -
512, i.e. 0 in Nat and negative over the integers). -/
theorem c4_counterexample :
    (c4Block.inner_alloc 512).1 = some 768 ∧
    (c4Block.inner_alloc 512).2.current_hole_size = 768 ∧
    c4Block.current_hole_size = 256 ∧
    (c4Block.inner_alloc 512).2.current_hole_size ≠
      c4Block.current_hole_size - add_alignment_padding 512 ∧
    ((c4Block.current_hole_size : Int) - (add_alignment_padding 512 : Nat) < 0) := by
  exact ⟨by decide, by decide, by decide, by decide, by decide⟩

/-- C4 amended: for every block whose cursor is word-aligned (as in every
reachable state), if `inner_alloc s` succeeds without a hole skip — the
aligned candidate `(cursor - s) & ALLOC_ALIGN_MASK` is at or above the
limit — then the returned pointer is that candidate and the new
`current_hole_size()` equals `h - round_up(s, ALIGN)`. -/
theorem c4_hole_size_decrease_no_skip :
    ∀ (b : BumpBlock) (s : Nat), ALIGN ∣ b.cursor → s ≤ b.cursor →
      b.limit ≤ alignDown (b.cursor - s) →
      (b.inner_alloc s).1 = some (alignDown (b.cursor - s)) ∧
      (b.inner_alloc s).2.current_hole_size =
        b.current_hole_size - add_alignment_padding s := by
  intro b s hc hsub hge
  rw [inner_alloc_commit hsub (Nat.not_lt.mpr hge)]
  constructor
  · rfl
  · show alignDown (b.cursor - s) - b.limit = (b.cursor - b.limit) - add_alignment_padding s
    rw [alignDown_sub_eq hc hsub]
    rw [alignDown_sub_eq hc hsub] at hge
    have := le_add_alignment_padding s
    omega

theorem c4_hole_size_decrease_no_skip_witness :
    ((freshBlock 0).inner_alloc 8).1 = some (alignDown ((freshBlock 0).cursor - 8)) ∧
    ((freshBlock 0).inner_alloc 8).2.current_hole_size =
      (freshBlock 0).current_hole_size - add_alignment_padding 8 :=
  c4_hole_size_decrease_no_skip (freshBlock 0) 8 ⟨2032, rfl⟩ (by decide) (by decide)

/-- C7: the size classifier returns Small exactly on 1..128, Medium
exactly on 129..8192, Large exactly on 8193..2^32 - 1, and BadRequest for
every other size (in particular 0 and everything above 2^32 - 1). -/
theorem c7_size_classifier :
    ∀ s : Nat,
      (SizeClass.get_for_size s = .ok .Small ↔ 1 ≤ s ∧ s ≤ 128) ∧
      (SizeClass.get_for_size s = .ok .Medium ↔ 129 ≤ s ∧ s ≤ 8192) ∧
      (SizeClass.get_for_size s = .ok .Large ↔ 8193 ≤ s ∧ s ≤ 2 ^ 32 - 1) ∧
      (SizeClass.get_for_size s = .error .BadRequest ↔ (s = 0 ∨ 2 ^ 32 - 1 < s)) := by
  intro s
  have hpow : (2 : Nat) ^ 32 - 1 = 4294967295 := by norm_num
  simp only [SizeClass.get_for_size, SMALL_OBJECT_MIN, SMALL_OBJECT_MAX, MEDIUM_OBJECT_MIN,
    MEDIUM_OBJECT_MAX, LARGE_OBJECT_MIN, LARGE_OBJECT_MAX, MAX_ALLOC_SIZE, LINE_SIZE, hpow]
  refine ⟨?_, ?_, ?_, ?_⟩ <;> constructor <;> intro hx <;>
    split_ifs at hx ⊢ with h1 h2 h3 <;>
      first
        | rfl
        | omega
        | simp at hx
        | (exfalso; omega)

/-- C8: a successful `alloc_array(n)` writes the value 0 to every one of
the `n` payload bytes before the handle is returned. -/
theorem c8_alloc_array_zeroes :
    ∀ (bl : BlockList) (hs n : Nat) (mem hdr : Nat → Nat) (p : Nat) (bl' : BlockList)
      (m' : Nat → Nat),
      heapAllocArrayMem bl hs n mem hdr = some (.ok (p, (bl', m'))) →
      ∀ i, i < n → m' (p + i) = 0 := by
  intro bl hs n mem hdr p bl' m' h i hi
  obtain ⟨space, cls, _, _, rfl, rfl⟩ := heapAllocArrayMem_inv h
  exact zeroRange_get _ _ n i hi

theorem c8_alloc_array_zeroes_witness :
    arrayMemBytes (heapAllocArrayMem emptyBlockList 8 8 (fun _ => 7) (fun _ => 9))
      (32632 + 0) = 0 :=
  c8_alloc_array_zeroes emptyBlockList 8 8 (fun _ => 7) (fun _ => 9) 32632
    (arrayMemState (heapAllocArrayMem emptyBlockList 8 8 (fun _ => 7) (fun _ => 9)))
    (arrayMemBytes (heapAllocArrayMem emptyBlockList 8 8 (fun _ => 7) (fun _ => 9)))
    rfl 0 (by decide)

/-- C10: `inner_alloc` terminates for every well-formed block state (all
real blocks have a word-aligned base) and every `alloc_size`: the
explicit-fuel version reaches an answer with `rel_limit / LINE_SIZE + 3`
fuel, and whenever the hole scan actually runs, the limit of any hole it
finds is strictly below the current limit, making the self-recursion
well-founded. -/
theorem c10_inner_alloc_terminates :
    (∀ (b : BumpBlock) (s : Nat), ALIGN ∣ b.base → wfInv b →
      (innerAllocF b.innerAllocFuel b s).isSome) ∧
    (∀ (b : BumpBlock) (s c l : Nat), ALIGN ∣ b.base → wfInv b →
      alignDown (b.cursor - s) < b.limit →
      find_next_available_hole b.lineMark (b.limit - b.base) s = some (c, l) →
      l < b.limit - b.base) := by
  constructor
  · intro b s hbase hb
    refine innerAllocF_terminates b.innerAllocFuel b s hbase hb ?_
    unfold BumpBlock.innerAllocFuel
    omega
  · intro b s c l hbase hb hscan hfh
    exact find_hole_scan_lt hbase hb hscan hfh

theorem c10_inner_alloc_terminates_witness :
    (innerAllocF (freshBlock 0).innerAllocFuel (freshBlock 0) 8).isSome ∧
      (0 : Nat) < 1280 := by
  constructor
  · exact c10_inner_alloc_terminates.1 (freshBlock 0) 8 ⟨0, rfl⟩
      ⟨Nat.le_refl _, Nat.le_add_right _ _, Nat.le_refl _⟩
  · exact c10_inner_alloc_terminates.2 c4Block 512 1280 0 ⟨0, rfl⟩
      ⟨by decide, by decide, by decide⟩ (by decide) (by decide)
/-- C2: with a head present, a Medium request larger than the head's
current hole is routed to `overflow_alloc` — which never allocates from
the head and never rotates it (head and used list unchanged) — and every
other non-Large request first attempts `inner_alloc` on the head: when
that succeeds, `find_space` returns its pointer with only the head
updated. -/
theorem c2_medium_overflow_routing :
    (∀ (bl : BlockList) (hb : BumpBlock) (s : Nat), bl.head = some hb →
      hb.current_hole_size < s →
      bl.find_space s SizeClass.Medium = bl.overflow_alloc s ∧
      ∀ p bl', bl.overflow_alloc s = some (.ok (p, bl')) →
        bl'.head = bl.head ∧ bl'.used = bl.used) ∧
    (∀ (bl : BlockList) (hb : BumpBlock) (s : Nat) (cls : SizeClass), bl.head = some hb →
      cls ≠ SizeClass.Large → ¬(cls = SizeClass.Medium ∧ hb.current_hole_size < s) →
      ∀ p hb', hb.inner_alloc s = (some p, hb') →
        bl.find_space s cls = some (.ok (p, { bl with head := some hb' }))) := by
  constructor
  · intro bl hb s hhd hhole
    constructor
    · rw [find_space_unfold]
      simp only [findSpaceF]
      rw [if_neg (by decide : ¬(SizeClass.Medium = SizeClass.Large))]
      simp only [hhd]
      rw [if_pos ⟨trivial, hhole⟩]
    · intro p bl' hov
      exact overflow_alloc_preserves hov
  · intro bl hb s cls hhd hlarge hncond p hb' hia
    rw [find_space_unfold]
    simp only [findSpaceF]
    rw [if_neg hlarge]
    simp only [hhd]
    rw [if_neg hncond]
    simp only [hia]

theorem c2_medium_overflow_routing_witness :
    c2List.find_space 8192 SizeClass.Medium = c2List.overflow_alloc 8192 ∧
    c2List.find_space 16 SizeClass.Small =
      some (.ok (112, { c2List with head := some { c2HeadBlock with cursor := 112 } })) := by
  constructor
  · exact (c2_medium_overflow_routing.1 c2List c2HeadBlock 8192 rfl (by decide)).1
  · exact c2_medium_overflow_routing.2 c2List c2HeadBlock 16 SizeClass.Small rfl
      (by decide) (by decide) 112 { c2HeadBlock with cursor := 112 } rfl

/-- C5 as stated is false for `alloc_array`: the array payload is placed
at `space + sizeof(Header)` with the unpadded header size, so with a
4-byte header a successful `alloc_array` returns a pointer that is not
word-aligned. -/
theorem c5_counterexample :
    allocResultPtr (heapAllocArray emptyBlockList 4 8) = some 32628 ∧
      32628 % ALIGN = 4 := by
  exact ⟨rfl, by decide⟩

/-- C5 amended: on a well-formed heap, every payload pointer returned by
a successful `alloc` is word-aligned and its payload bytes lie inside the
owning block's payload range; for `alloc_array` the payload range
containment holds as well, and the pointer is word-aligned provided
`sizeof(Header)` is a multiple of `ALIGN` (as it is for every header used
in this repository). -/
theorem c5_payload_alignment_containment :
    (∀ (bl : BlockList) (hs os p : Nat) (bl' : BlockList), bl.wfState →
      heapAlloc bl hs os = some (.ok (p, bl')) →
      ALIGN ∣ p ∧ ∃ blk, MemBlock bl' blk ∧ blk.base ≤ p ∧
        p + os ≤ blk.base + BLOCK_CAPACITY) ∧
    (∀ (bl : BlockList) (hs n p : Nat) (bl' : BlockList), bl.wfState →
      heapAllocArray bl hs n = some (.ok (p, bl')) →
      (ALIGN ∣ hs → ALIGN ∣ p) ∧ ∃ blk, MemBlock bl' blk ∧ blk.base ≤ p ∧
        p + n ≤ blk.base + BLOCK_CAPACITY) := by
  constructor
  · intro bl hs os p bl' hwf h
    obtain ⟨space, cls, hcls, hfs, rfl⟩ := heapAlloc_inv h
    rw [find_space_unfold] at hfs
    obtain ⟨hp8, hwf', blk, hm, hb1, hb2⟩ := findSpaceF_spec _ bl _ cls space bl' hwf hfs
    refine ⟨Dvd.dvd.add hp8 (dvd_add_alignment_padding hs), blk, hm, by omega, ?_⟩
    have hle := le_add_alignment_padding (add_alignment_padding hs + os)
    omega
  · intro bl hs n p bl' hwf h
    obtain ⟨space, cls, hcls, hfs, rfl⟩ := heapAllocArray_inv h
    rw [find_space_unfold] at hfs
    obtain ⟨hp8, hwf', blk, hm, hb1, hb2⟩ := findSpaceF_spec _ bl _ cls space bl' hwf hfs
    refine ⟨fun hdvd => Dvd.dvd.add hp8 hdvd, blk, hm, by omega, ?_⟩
    have hle := le_add_alignment_padding (add_alignment_padding hs + n)
    have hle2 := le_add_alignment_padding hs
    omega

theorem c5_payload_alignment_containment_witness :
    ALIGN ∣ 32632 ∧
      ∃ blk, MemBlock (allocResultState (heapAlloc emptyBlockList 8 8)) blk ∧
        blk.base ≤ 32632 ∧ 32632 + 8 ≤ blk.base + BLOCK_CAPACITY :=
  c5_payload_alignment_containment.1 emptyBlockList 8 8 32632
    (allocResultState (heapAlloc emptyBlockList 8 8)) emptyBlockList_wf rfl

/-- C6: for every payload pointer returned by a successful `alloc` or
`alloc_array`, `get_object (get_header p) = p` — the two conversions move
the pointer by the same `sizeof(Header)` in opposite directions. -/
theorem c6_header_object_roundtrip :
    (∀ (bl : BlockList) (hs os p : Nat) (bl' : BlockList),
      heapAlloc bl hs os = some (.ok (p, bl')) →
      get_object hs (get_header hs p) = p) ∧
    (∀ (bl : BlockList) (hs n p : Nat) (bl' : BlockList),
      heapAllocArray bl hs n = some (.ok (p, bl')) →
      get_object hs (get_header hs p) = p) := by
  constructor
  · intro bl hs os p bl' h
    obtain ⟨space, cls, _, _, rfl⟩ := heapAlloc_inv h
    unfold get_object get_header
    have := le_add_alignment_padding hs
    omega
  · intro bl hs n p bl' h
    obtain ⟨space, cls, _, _, rfl⟩ := heapAllocArray_inv h
    unfold get_object get_header
    omega

theorem c6_header_object_roundtrip_witness :
    get_object 8 (get_header 8 32632) = 32632 :=
  c6_header_object_roundtrip.1 emptyBlockList 8 8 32632
    (allocResultState (heapAlloc emptyBlockList 8 8)) rfl

/-- C9 as stated is false: a header type of size 8193 is non-zero, yet
`alloc_array(0)` fails with `BadRequest`, because the padded total size
8200 falls in the Large class, which `find_space` rejects. -/
theorem c9_counterexample :
    heapAllocArray emptyBlockList 8193 0 = some (.error .BadRequest) := rfl

/-- C9 amended: for every header type whose size is non-zero and whose
padded size is at most `MEDIUM_OBJECT_MAX`, `alloc_array(0)` on the empty
heap succeeds (returns Ok with a handle) rather than failing with
`BadRequest`: the size class is computed from the total size including the
padded header, which is non-zero even for a zero-length array. -/
theorem c9_alloc_array_zero_len :
    ∀ hs : Nat, 1 ≤ hs → add_alignment_padding hs ≤ MEDIUM_OBJECT_MAX →
      isOkResult (heapAllocArray emptyBlockList hs 0) = true := by
  intro hs h1 h2
  have h8 : ALIGN ∣ add_alignment_padding hs := dvd_add_alignment_padding hs
  have hge1 : 1 ≤ add_alignment_padding hs := le_trans h1 (le_add_alignment_padding hs)
  have hpa : add_alignment_padding (add_alignment_padding hs + 0) =
      add_alignment_padding hs := by
    rw [Nat.add_zero]
    exact add_alignment_padding_eq_self h8
  simp only [MEDIUM_OBJECT_MAX] at h2
  have hcap : add_alignment_padding hs ≤ BLOCK_CAPACITY := by
    simp only [BLOCK_CAPACITY_eq]
    omega
  have hcls : SizeClass.get_for_size (add_alignment_padding hs) = .ok SizeClass.Small ∨
      SizeClass.get_for_size (add_alignment_padding hs) = .ok SizeClass.Medium := by
    simp only [SizeClass.get_for_size, SMALL_OBJECT_MIN, SMALL_OBJECT_MAX, LINE_SIZE,
      MEDIUM_OBJECT_MIN, MEDIUM_OBJECT_MAX]
    by_cases hsm : 1 ≤ add_alignment_padding hs ∧ add_alignment_padding hs ≤ 128
    · rw [if_pos hsm]
      exact Or.inl rfl
    · rw [if_neg hsm, if_pos ⟨by omega, by omega⟩]
      exact Or.inr rfl
  simp only [heapAllocArray, hpa]
  rcases hcls with hcls | hcls
  · obtain ⟨bl', hfs⟩ :=
      find_space_empty (add_alignment_padding hs) SizeClass.Small (by decide) h8 hcap
    simp only [hcls, hfs]
    rfl
  · obtain ⟨bl', hfs⟩ :=
      find_space_empty (add_alignment_padding hs) SizeClass.Medium (by decide) h8 hcap
    simp only [hcls, hfs]
    rfl

theorem c9_alloc_array_zero_len_witness :
    isOkResult (heapAllocArray emptyBlockList 8 0) = true :=
  c9_alloc_array_zero_len 8 (by decide) (by decide)
